import Mathlib

/-!
Verification of the Leaf Analyzer front-end script (src/app.py), shallowly
embedded over `List Char`.  Python strings are modelled as `List Char`,
`str.find` as an `Option Nat`-valued search (with an `Int`-valued wrapper
where the raw `-1` sentinel leaks into slicing), `str.strip` as two-sided
`dropWhile`, and the response-parsing loop at app.py lines 145-153 as
`segmentWith` / `segment`.  The submit handler's image-selection branch
(app.py lines 102-110) is modelled as `submitHandler`.
-/

namespace LeafAnalyzer

/-- One character of Python whitespace (the ASCII set used by `str.strip()`). -/
def isWsChar (c : Char) : Bool :=
  c == ' ' || c == '\t' || c == '\n' || c == '\x0b' || c == '\x0c' || c == '\r'

/-- Python `s.strip()` (two-sided whitespace trim). -/
def stripWs (l : List Char) : List Char :=
  ((l.dropWhile isWsChar).reverse.dropWhile isWsChar).reverse

/-- Python `s.strip("*")` (two-sided trim of literal `*`). -/
def stripStar (l : List Char) : List Char :=
  ((l.dropWhile (· == '*')).reverse.dropWhile (· == '*')).reverse

/-- Python slice `t[a:b]` for already-clamped nonnegative bounds. -/
def sliceNat (t : List Char) (a b : Nat) : List Char := (t.take b).drop a

/-- `p` occurs in `t` as a contiguous block starting at index `i`. -/
def occursAt (t p : List Char) (i : Nat) : Prop := (t.drop i).take p.length = p

instance occursAtDec (t p : List Char) (i : Nat) : Decidable (occursAt t p i) := by
  unfold occursAt; infer_instance

/-- `leads p l` holds when `p` is an initial segment of `l`. -/
def leads : List Char → List Char → Bool
  | [], _ => true
  | _ :: _, [] => false
  | a :: as, b :: bs => a == b && leads as bs

/-- Index of the first occurrence of `p` in `l`, when there is one. -/
def firstMatch (p : List Char) : List Char → Option Nat
  | [] => if p.isEmpty then some 0 else none
  | c :: rest => if leads p (c :: rest) then some 0 else (firstMatch p rest).map (· + 1)

/-- Python `t.find(p, base)`, as an `Option` (`none` for Python's `-1`). -/
def findFrom (t p : List Char) (base : Nat) : Option Nat :=
  (firstMatch p (t.drop base)).map (· + base)

/-- Python `t.find(p, base)` with the raw `-1` sentinel. -/
def pyFind (t p : List Char) (base : Nat) : Int :=
  match findFrom t p base with
  | none => -1
  | some j => (j : Int)

/-- Normalize a Python slice bound: negative bounds count from the end,
and everything is clamped into `[0, n]`. -/
def pyNorm (n : Nat) (i : Int) : Nat :=
  if i < 0 then ((n : Int) + i).toNat else min i.toNat n

/-- Python slice `t[a:b]` with full `int` semantics. -/
def pySlice (t : List Char) (a b : Int) : List Char :=
  sliceNat t (pyNorm t.length a) (pyNorm t.length b)

/-! ### The fixed category labels (app.py line 141) -/

def mfL : List Char := ("Morphological Features").toList
def ccL : List Char := ("Chemical Composition").toList
def mpL : List Char := ("Medicinal Properties").toList
def dcL : List Char := ("Diseases and Conditions").toList
def usL : List Char := ("Usage").toList
def vdL : List Char := ("Verdict").toList

def categories : List (List Char) := [mfL, ccL, mpL, dcL, usL, vdL]

/-! ### The response segmenter (app.py lines 145-153) -/

/-- One step of the inner loop of app.py lines 149-152: lower the running
`next_start_index` to `response_text.find(next_category, base)` whenever that
search succeeds with a smaller index. -/
def nbF (t : List Char) (base : Nat) (acc : Nat) (c : List Char) : Nat :=
  match findFrom t c base with
  | none => acc
  | some j => if j < acc then j else acc

/-- The inner loop of app.py lines 148-152: starting from
`next_start_index = len(response_text)`, fold `nbF` over all categories. -/
def nextBoundary (labels : List (List Char)) (t : List Char) (base : Nat) : Nat :=
  labels.foldl (nbF t base) t.length

/-- The category-parsing loop of app.py lines 145-153, generalized over the
label list.  The Python dict (distinct keys, insertion order) is modelled as
an association list in label order. -/
def segmentWith (labels : List (List Char)) (t : List Char) : List (List Char × List Char) :=
  labels.filterMap (fun c =>
    (findFrom t c 0).map (fun s =>
      (c, stripWs (sliceNat t (s + c.length + 1) (nextBoundary labels t (s + c.length))))))

/-- The segmenter exactly as run by app.py, over the fixed `categories`. -/
def segment (t : List Char) : List (List Char × List Char) := segmentWith categories t

/-! ### Leaf Name / Scientific Name extraction (app.py lines 121-131) -/

def lnL : List Char := ("Leaf Name").toList
def snL : List Char := ("Scientific Name").toList
def lnColon : List Char := ("Leaf Name:").toList
def snColon : List Char := ("Scientific Name:").toList
def nAtext : List Char := ("N/A").toList
def nlL : List Char := ['\n']

/-- app.py lines 121-126: `leaf_name` defaults to "N/A"; if "Leaf Name"
occurs, slice from after "Leaf Name:" to `find("\n", start)` — an `Int`
that is `-1` when no newline is found — then `.strip().strip("*")`. -/
def leafName (t : List Char) : List Char :=
  match findFrom t lnL 0 with
  | none => nAtext
  | some s =>
    stripStar (stripWs (pySlice t (Int.ofNat (s + lnColon.length))
      (pyFind t nlL (s + lnColon.length))))

/-- app.py lines 128-131, same shape for "Scientific Name". -/
def scientificName (t : List Char) : List Char :=
  match findFrom t snL 0 with
  | none => nAtext
  | some s =>
    stripStar (stripWs (pySlice t (Int.ofNat (s + snColon.length))
      (pyFind t nlL (s + snColon.length))))

/-! ### The submit handler's image selection (app.py lines 102-110) -/

/-- Mime-type-tagged raw image bytes (the payload `input_image_setup` builds). -/
structure ImagePayload where
  mimeType : List Char
  data : List Nat

/-- Outcome of the submit branch: either the "no image" error path
(`st.error` + `st.stop`, so the AI is never called), or a call into
`get_gemini_response` with the chosen payload. -/
inductive SubmitResult where
  | errorStop (msg : List Char)
  | aiCall (payload : ImagePayload)

def noImageMsg : List Char :=
  ("No image provided. Please upload an image or take a picture.").toList

/-- app.py lines 104-110: prefer the uploaded file, else the captured image,
else error out before any AI call. -/
def submitHandler (uploadedFile captured : Option ImagePayload) : SubmitResult :=
  match uploadedFile with
  | some f => .aiCall f
  | none =>
    match captured with
    | some f => .aiCall f
    | none => .errorStop noImageMsg

/-! ### Basic facts about the search primitives -/

theorem leads_iff_take (p : List Char) : ∀ l, leads p l = true ↔ l.take p.length = p := by
  induction p with
  | nil => intro l; simp [leads]
  | cons a as ih =>
    intro l
    cases l with
    | nil => simp [leads]
    | cons b bs =>
      simp only [leads, Bool.and_eq_true, beq_iff_eq, List.length_cons, List.take_succ_cons,
        List.cons.injEq, ih bs]
      tauto

theorem firstMatch_sound (p : List Char) :
    ∀ (l : List Char) (i : Nat), firstMatch p l = some i → (l.drop i).take p.length = p := by
  intro l
  induction l with
  | nil =>
    intro i h
    cases p with
    | nil => simp
    | cons a as => simp [firstMatch] at h
  | cons c rest ih =>
    intro i h
    rcases Bool.eq_false_or_eq_true (leads p (c :: rest)) with hl | hl
    · simp only [firstMatch, hl, if_true, Option.some.injEq] at h
      subst h
      simpa using (leads_iff_take p (c :: rest)).1 hl
    · simp only [firstMatch, hl, Bool.false_eq_true, if_false, Option.map_eq_some'] at h
      obtain ⟨j, hj, rfl⟩ := h
      simpa using ih j hj

theorem firstMatch_complete (p : List Char) :
    ∀ (l : List Char) (i : Nat), (l.drop i).take p.length = p →
      ∃ j, j ≤ i ∧ firstMatch p l = some j := by
  intro l
  induction l with
  | nil =>
    intro i h
    simp only [List.drop_nil, List.take_nil] at h
    refine ⟨0, Nat.zero_le i, ?_⟩
    simp [firstMatch, ← h]
  | cons c rest ih =>
    intro i h
    rcases em (leads p (c :: rest) = true) with hl | hl
    · exact ⟨0, Nat.zero_le i, by simp [firstMatch, hl]⟩
    · cases i with
      | zero =>
        exact absurd ((leads_iff_take p (c :: rest)).2 (by simpa using h)) hl
      | succ k =>
        obtain ⟨j, hji, hj⟩ := ih k (by simpa using h)
        exact ⟨j + 1, Nat.succ_le_succ hji, by simp [firstMatch, hl, hj]⟩

theorem findFrom_sound (t p : List Char) (base j : Nat) :
    findFrom t p base = some j → base ≤ j ∧ occursAt t p j := by
  intro h
  simp only [findFrom, Option.map_eq_some'] at h
  obtain ⟨k, hk, rfl⟩ := h
  refine ⟨Nat.le_add_left base k, ?_⟩
  have := firstMatch_sound p (t.drop base) k hk
  unfold occursAt
  rwa [Nat.add_comm k base, ← List.drop_drop]

theorem findFrom_complete (t p : List Char) (base i : Nat) :
    base ≤ i → occursAt t p i → ∃ j, j ≤ i ∧ findFrom t p base = some j := by
  intro hbi hocc
  obtain ⟨d, rfl⟩ := Nat.exists_eq_add_of_le hbi
  unfold occursAt at hocc
  rw [← List.drop_drop] at hocc
  obtain ⟨j, hjd, hj⟩ := firstMatch_complete p (t.drop base) d hocc
  refine ⟨j + base, by omega, ?_⟩
  simp [findFrom, hj]

theorem findFrom_minimal (t p : List Char) (base j : Nat) :
    findFrom t p base = some j → ∀ i, base ≤ i → i < j → ¬ occursAt t p i := by
  intro h i hbi hij hocc
  obtain ⟨j', hj'i, hj'⟩ := findFrom_complete t p base i hbi hocc
  rw [h] at hj'
  cases hj'
  omega

theorem findFrom_not_found (t p : List Char) (base : Nat) :
    findFrom t p base = none → ∀ i, base ≤ i → ¬ occursAt t p i := by
  intro h i hbi hocc
  obtain ⟨j, _, hj⟩ := findFrom_complete t p base i hbi hocc
  rw [h] at hj
  cases hj

/-- A nonempty pattern can only occur at an index where it fits inside `t`. -/
theorem occursAt_le_length (t p : List Char) (i : Nat) (hp : p ≠ []) :
    occursAt t p i → i + p.length ≤ t.length := by
  intro h
  unfold occursAt at h
  have hlen : ((t.drop i).take p.length).length = p.length := by rw [h]
  rw [List.length_take, List.length_drop] at hlen
  have hple : 1 ≤ p.length := by
    cases p with
    | nil => exact absurd rfl hp
    | cons a as => simp
  omega

/-! ### Facts about the boundary fold -/

theorem nbFold_le_acc (t : List Char) (base : Nat) :
    ∀ (L : List (List Char)) (acc : Nat), L.foldl (nbF t base) acc ≤ acc := by
  intro L
  induction L with
  | nil => intro acc; simp
  | cons c L ih =>
    intro acc
    have h1 : L.foldl (nbF t base) (nbF t base acc c) ≤ nbF t base acc c := ih _
    have h2 : nbF t base acc c ≤ acc := by
      unfold nbF
      cases hf : findFrom t c base with
      | none => exact Nat.le_refl acc
      | some j =>
        by_cases hj : j < acc
        · simp [hj]; omega
        · simp [hj]
    calc List.foldl (nbF t base) (nbF t base acc c) L ≤ nbF t base acc c := h1
      _ ≤ acc := h2

theorem nbFold_le_found (t : List Char) (base : Nat) :
    ∀ (L : List (List Char)) (acc : Nat) (c : List Char) (j : Nat),
      c ∈ L → findFrom t c base = some j → L.foldl (nbF t base) acc ≤ j := by
  intro L
  induction L with
  | nil => intro acc c j hc; cases hc
  | cons c0 L ih =>
    intro acc c j hc hf
    rcases List.mem_cons.1 hc with rfl | hcL
    · have hstep : nbF t base acc c ≤ j := by
        unfold nbF
        rw [hf]
        by_cases hj : j < acc
        · simp [hj]
        · simp [hj]; omega
      calc List.foldl (nbF t base) (nbF t base acc c) L ≤ nbF t base acc c :=
            nbFold_le_acc t base L _
        _ ≤ j := hstep
    · exact ih _ c j hcL hf

theorem nbFold_cases (t : List Char) (base : Nat) :
    ∀ (L : List (List Char)) (acc : Nat),
      L.foldl (nbF t base) acc = acc ∨
        ∃ c ∈ L, findFrom t c base = some (L.foldl (nbF t base) acc) := by
  intro L
  induction L with
  | nil => intro acc; left; rfl
  | cons c0 L ih =>
    intro acc
    rcases ih (nbF t base acc c0) with h | ⟨c, hc, hf⟩
    · simp only [List.foldl_cons, h]
      unfold nbF
      cases hf : findFrom t c0 base with
      | none => left; rfl
      | some j =>
        by_cases hj : j < acc
        · right
          exact ⟨c0, List.mem_cons_self c0 L, by simp [hf, hj]⟩
        · left; simp [hj]
    · right
      exact ⟨c, List.mem_cons_of_mem c0 hc, by simpa using hf⟩

theorem nextBoundary_le_length (labels : List (List Char)) (t : List Char) (base : Nat) :
    nextBoundary labels t base ≤ t.length :=
  nbFold_le_acc t base labels t.length

theorem nextBoundary_le_of_occursAt (labels : List (List Char)) (t c : List Char)
    (base i : Nat) (hc : c ∈ labels) (hbi : base ≤ i) (hocc : occursAt t c i) :
    nextBoundary labels t base ≤ i := by
  obtain ⟨j, hji, hj⟩ := findFrom_complete t c base i hbi hocc
  exact Nat.le_trans (nbFold_le_found t base labels t.length c j hc hj) hji

theorem nextBoundary_cases (labels : List (List Char)) (t : List Char) (base : Nat) :
    nextBoundary labels t base = t.length ∨
      ∃ c ∈ labels, base ≤ nextBoundary labels t base ∧
        occursAt t c (nextBoundary labels t base) := by
  rcases nbFold_cases t base labels t.length with h | ⟨c, hc, hf⟩
  · left; exact h
  · right
    obtain ⟨hb, hocc⟩ := findFrom_sound t c base _ hf
    exact ⟨c, hc, hb, hocc⟩

/-! ### Characterizing the segmenter's entries -/

theorem mem_segmentWith (labels : List (List Char)) (t c v : List Char) :
    (c, v) ∈ segmentWith labels t ↔
      c ∈ labels ∧ ∃ s, findFrom t c 0 = some s ∧
        v = stripWs (sliceNat t (s + c.length + 1) (nextBoundary labels t (s + c.length))) := by
  unfold segmentWith
  rw [List.mem_filterMap]
  constructor
  · rintro ⟨a, ha, hfa⟩
    rw [Option.map_eq_some'] at hfa
    obtain ⟨s, hs, heq⟩ := hfa
    injection heq with h1 h2
    subst h1
    exact ⟨ha, s, hs, h2.symm⟩
  · rintro ⟨hc, s, hs, rfl⟩
    exact ⟨c, hc, by rw [hs]; rfl⟩

theorem segKeys_eq_found (inner : List (List Char)) (t : List Char) :
    ∀ L : List (List Char),
      (L.filterMap (fun c =>
        (findFrom t c 0).map (fun s =>
          (c, stripWs (sliceNat t (s + c.length + 1)
            (nextBoundary inner t (s + c.length))))))).map Prod.fst
        = L.filter (fun c => (findFrom t c 0).isSome) := by
  intro L
  induction L with
  | nil => rfl
  | cons c L ih =>
    cases hs : findFrom t c 0 with
    | none => simp [List.filterMap_cons, List.filter_cons, hs, ih]
    | some s => simp [List.filterMap_cons, List.filter_cons, hs, ih]

theorem segmentWith_keys (labels : List (List Char)) (t : List Char) :
    (segmentWith labels t).map Prod.fst
      = labels.filter (fun c => (findFrom t c 0).isSome) :=
  segKeys_eq_found labels t labels

/-! ### Claim C6: the worked example -/

/-- C6: segmenting "Morphological Features: green. Usage: tea." against the
labels ["Morphological Features", "Usage"] yields exactly the mapping
{"Morphological Features": "green.", "Usage": "tea."}. -/
theorem C6_worked_example :
    segmentWith [mfL, usL] (("Morphological Features: green. Usage: tea.").toList)
      = [(mfL, ("green.").toList), (usL, ("tea.").toList)] := by decide

/-! ### Claim C8: no image at submission -/

/-- C8: with neither an uploaded file nor a captured image present, the submit
branch produces the "no image provided" error stop, and in particular no AI
call is attempted. -/
theorem C8_no_image_no_ai_call :
    submitHandler none none = SubmitResult.errorStop noImageMsg ∧
      ∀ p : ImagePayload, submitHandler none none ≠ SubmitResult.aiCall p := by
  refine ⟨rfl, ?_⟩
  intro p h
  exact SubmitResult.noConfusion h

/-! ### Claim C5: absent labels are omitted -/

/-- C5: a category label that does not occur in ResponseText is omitted from
the result mapping entirely (no key at all), and if no category label occurs
in ResponseText the result mapping is empty. -/
theorem C5_absent_label_omitted (t : List Char) :
    (∀ c, findFrom t c 0 = none → ∀ v, (c, v) ∉ segment t) ∧
      ((∀ c ∈ categories, findFrom t c 0 = none) → segment t = []) := by
  constructor
  · intro c hc v hmem
    rcases (mem_segmentWith categories t c v).1 hmem with ⟨_, s, hs, _⟩
    rw [hc] at hs
    cases hs
  · intro hall
    unfold segment segmentWith
    refine List.filterMap_eq_nil_iff.2 ?_
    intro c hc
    rw [hall c hc]
    rfl

theorem C5_absent_witness :
    ((usL, ("x").toList) ∉ segment (("hello").toList)) ∧
      segment (("hello").toList) = [] :=
  ⟨(C5_absent_label_omitted (("hello").toList)).1 usL (by decide) (("x").toList),
    (C5_absent_label_omitted (("hello").toList)).2 (by decide)⟩

/-! ### Claim C7: totality and graceful degradation -/

/-- C7: the segmenter is a total pure function of the response text: its keys
are exactly the categories whose label is found (so missing categories only
shrink the mapping), the empty text yields the empty mapping, and a label at
the very end of the text yields an empty-content entry rather than a failure. -/
theorem C7_total_graceful :
    (∀ t : List Char, (segment t).map Prod.fst
        = categories.filter (fun c => (findFrom t c 0).isSome)) ∧
      segment [] = [] ∧
      segment (("Usage").toList) = [(usL, [])] := by
  refine ⟨?_, by decide, by decide⟩
  intro t
  exact segmentWith_keys categories t

/-! ### Claim C1: the end-boundary rule -/

/-- The end-boundary rule exactly as claim C1 words it (for comparison with
the code's rule): the minimum over every category label other than the found
one of that label's first occurrence strictly after `start + len(label)`. -/
def claimC1Boundary (labels : List (List Char)) (t c : List Char) (base : Nat) : Nat :=
  (labels.filter (fun c2 => c2 != c)).foldl (nbF t (base + 1)) t.length

/-- The segmenter as claim C1 describes it, with `claimC1Boundary` as the
span end. -/
def claimC1Segment (labels : List (List Char)) (t : List Char) :
    List (List Char × List Char) :=
  labels.filterMap (fun c =>
    (findFrom t c 0).map (fun s =>
      (c, stripWs (sliceNat t (s + c.length + 1) (claimC1Boundary labels t c (s + c.length))))))

/-- C1 is false as stated: on "Usage: a Usage: b" the code bounds the span of
"Usage" by the second occurrence of "Usage" itself, which the claim's rule
(other labels only) ignores, so the two rules give different spans. -/
theorem C1_counterexample :
    segment (("Usage: a Usage: b").toList) = [(usL, ("a").toList)] ∧
      claimC1Segment categories (("Usage: a Usage: b").toList)
        = [(usL, ("a Usage: b").toList)] ∧
      ("a").toList ≠ ("a Usage: b").toList :=
  ⟨by decide, by decide, by decide⟩

/-- C1 (amended): for a category found at `start`, the recorded span runs to
the boundary `nextBoundary`, which is the minimum over every category label —
the found label itself included — of the position of that label's first
occurrence at or after `start + len(label)`, and the end of ResponseText when
no such occurrence exists. -/
theorem C1_end_is_min_over_all_labels (t c : List Char) (s : Nat)
    (hc : c ∈ categories) (hs : findFrom t c 0 = some s) :
    ((c, stripWs (sliceNat t (s + c.length + 1) (nextBoundary categories t (s + c.length))))
        ∈ segment t) ∧
      nextBoundary categories t (s + c.length) ≤ t.length ∧
      (∀ c2 ∈ categories, ∀ j, s + c.length ≤ j → occursAt t c2 j →
        nextBoundary categories t (s + c.length) ≤ j) ∧
      (nextBoundary categories t (s + c.length) = t.length ∨
        (s + c.length ≤ nextBoundary categories t (s + c.length) ∧
          ∃ c2 ∈ categories, occursAt t c2 (nextBoundary categories t (s + c.length)))) := by
  refine ⟨?_, nextBoundary_le_length categories t _, ?_, ?_⟩
  · exact (mem_segmentWith categories t c _).2 ⟨hc, s, hs, rfl⟩
  · intro c2 hc2 j hj hocc
    exact nextBoundary_le_of_occursAt categories t c2 _ j hc2 hj hocc
  · rcases nextBoundary_cases categories t (s + c.length) with h | ⟨c2, hc2, hb, hocc⟩
    · exact Or.inl h
    · exact Or.inr ⟨hb, c2, hc2, hocc⟩

theorem C1_witness :
    ((usL, stripWs (sliceNat (("Usage: x").toList) (0 + usL.length + 1)
        (nextBoundary categories (("Usage: x").toList) (0 + usL.length))))
        ∈ segment (("Usage: x").toList)) ∧
      nextBoundary categories (("Usage: x").toList) (0 + usL.length)
        ≤ (("Usage: x").toList).length ∧
      (∀ c2 ∈ categories, ∀ j, 0 + usL.length ≤ j →
        occursAt (("Usage: x").toList) c2 j →
        nextBoundary categories (("Usage: x").toList) (0 + usL.length) ≤ j) ∧
      (nextBoundary categories (("Usage: x").toList) (0 + usL.length)
          = (("Usage: x").toList).length ∨
        (0 + usL.length ≤ nextBoundary categories (("Usage: x").toList) (0 + usL.length) ∧
          ∃ c2 ∈ categories,
            occursAt (("Usage: x").toList) c2
              (nextBoundary categories (("Usage: x").toList) (0 + usL.length)))) :=
  C1_end_is_min_over_all_labels (("Usage: x").toList) usL 0 (by decide) (by decide)

/-! ### Decomposition facts about stripping and slicing -/

theorem dropWhile_decomp (p : Char → Bool) (l : List Char) :
    ∃ pre, l = pre ++ l.dropWhile p ∧ ∀ x ∈ pre, p x = true :=
  ⟨l.takeWhile p, (List.takeWhile_append_dropWhile p l).symm,
    fun _ hx => List.mem_takeWhile_imp hx⟩

theorem stripWs_decomp (l : List Char) :
    ∃ pre suf, l = pre ++ stripWs l ++ suf ∧
      (∀ x ∈ pre, isWsChar x = true) ∧ (∀ x ∈ suf, isWsChar x = true) := by
  obtain ⟨pre, hpre, hpw⟩ := dropWhile_decomp isWsChar l
  obtain ⟨suf0, hsuf, hsw⟩ := dropWhile_decomp isWsChar (l.dropWhile isWsChar).reverse
  have hmid : l.dropWhile isWsChar = stripWs l ++ suf0.reverse := by
    have h := congrArg List.reverse hsuf
    simpa [List.reverse_append, stripWs] using h
  refine ⟨pre, suf0.reverse, ?_, hpw, ?_⟩
  · conv_lhs => rw [hpre]
    rw [hmid]
    simp [List.append_assoc]
  · intro x hx
    exact hsw x (by simpa using hx)

/-- `v` appears in `t` as a contiguous substring. -/
def contiguousIn (v t : List Char) : Prop := ∃ a b, t = a ++ v ++ b

theorem sliceNat_decomp (t : List Char) (a b : Nat) :
    t = t.take (min a b) ++ sliceNat t a b ++ t.drop b := by
  have h1 : t.take b = t.take (min a b) ++ sliceNat t a b := by
    unfold sliceNat
    rw [← List.take_take]
    exact (List.take_append_drop a (t.take b)).symm
  calc t = t.take b ++ t.drop b := (List.take_append_drop b t).symm
    _ = t.take (min a b) ++ sliceNat t a b ++ t.drop b := by rw [h1]

theorem stripWs_slice_contiguous (t : List Char) (a b : Nat) :
    contiguousIn (stripWs (sliceNat t a b)) t := by
  obtain ⟨pre, suf, hd, _, _⟩ := stripWs_decomp (sliceNat t a b)
  refine ⟨t.take (min a b) ++ pre, suf ++ t.drop b, ?_⟩
  calc t = t.take (min a b) ++ sliceNat t a b ++ t.drop b := sliceNat_decomp t a b
    _ = t.take (min a b) ++ (pre ++ stripWs (sliceNat t a b) ++ suf) ++ t.drop b := by
        rw [← hd]
    _ = t.take (min a b) ++ pre ++ stripWs (sliceNat t a b) ++ (suf ++ t.drop b) := by
        simp [List.append_assoc]

/-! ### Claim C2: what trimming the category loop applies -/

/-- C2 is false as stated: on "Usage: *antibacterial* " the recorded span for
"Usage" keeps its surrounding literal '*' characters — the category loop
trims whitespace only, so the claimed '*' trim does not happen. -/
theorem C2_counterexample :
    segment (("Usage: *antibacterial* ").toList)
        = [(usL, ("*antibacterial*").toList)] ∧
      stripStar (("*antibacterial*").toList) ≠ ("*antibacterial*").toList :=
  ⟨by decide, by decide⟩

/-- C2 (amended): every recorded span is the raw slice from just after the
label plus exactly one following character up to the computed end, trimmed of
leading/trailing whitespace only — surrounding '*' characters are not removed
by the category loop (that trim only happens in the Leaf Name / Scientific
Name extraction); so the raw span " *antibacterial* " yields
"*antibacterial*". -/
theorem C2_span_whitespace_trim_only (t c v : List Char)
    (hmem : (c, v) ∈ segment t) :
    ∃ s pre suf, findFrom t c 0 = some s ∧
      v = stripWs (sliceNat t (s + c.length + 1)
            (nextBoundary categories t (s + c.length))) ∧
      sliceNat t (s + c.length + 1) (nextBoundary categories t (s + c.length))
        = pre ++ v ++ suf ∧
      (∀ x ∈ pre, isWsChar x = true) ∧ (∀ x ∈ suf, isWsChar x = true) := by
  obtain ⟨hc, s, hs, hv⟩ := (mem_segmentWith categories t c v).1 hmem
  obtain ⟨pre, suf, hd, hpw, hsw⟩ :=
    stripWs_decomp (sliceNat t (s + c.length + 1) (nextBoundary categories t (s + c.length)))
  rw [← hv] at hd
  exact ⟨s, pre, suf, hs, hv, hd, hpw, hsw⟩

theorem C2_witness :
    ∃ s pre suf, findFrom (("Usage: tea.").toList) usL 0 = some s ∧
      ("tea.").toList = stripWs (sliceNat (("Usage: tea.").toList) (s + usL.length + 1)
            (nextBoundary categories (("Usage: tea.").toList) (s + usL.length))) ∧
      sliceNat (("Usage: tea.").toList) (s + usL.length + 1)
          (nextBoundary categories (("Usage: tea.").toList) (s + usL.length))
        = pre ++ ("tea.").toList ++ suf ∧
      (∀ x ∈ pre, isWsChar x = true) ∧ (∀ x ∈ suf, isWsChar x = true) :=
  C2_span_whitespace_trim_only (("Usage: tea.").toList) usL (("tea.").toList) (by decide)

/-! ### Claim C4: the two pseudo-categories -/

/-- Helper for relating the `Int`-typed Python slice to the `Nat` slice when
both bounds are in range. -/
theorem pySlice_ofNat (t : List Char) (a b : Nat) (ha : a ≤ t.length) (hb : b ≤ t.length) :
    pySlice t (Int.ofNat a) (Int.ofNat b) = sliceNat t a b := by
  unfold pySlice pyNorm
  have hca : Int.ofNat a = (a : Int) := rfl
  have hcb : Int.ofNat b = (b : Int) := rfl
  rw [hca, hcb, if_neg (by omega), if_neg (by omega)]
  have h3 : ((a : Int)).toNat = a := rfl
  have h4 : ((b : Int)).toNat = b := rfl
  rw [h3, h4, Nat.min_eq_left ha, Nat.min_eq_left hb]

/-- "Leaf Name" extracted the way claim C4 asserts — the same way as an
ordinary category, with the span ending at the nearest later category-label
occurrence.  Stated from the claim's words, for comparison with the code. -/
def claimC4LeafName (t : List Char) : List Char :=
  match findFrom t lnL 0 with
  | none => nAtext
  | some s =>
    stripStar (stripWs (sliceNat t (s + lnL.length + 1)
      (nextBoundary categories t (s + lnL.length))))

/-- C4 is false as stated: on "Leaf Name: Tulsi plant\nMore" the code cuts
the leaf name at the newline, while extraction "the same way as the ordinary
categories" would run to the end of the text (no category label follows). -/
theorem C4_counterexample :
    leafName (("Leaf Name: Tulsi plant\nMore").toList) = ("Tulsi plant").toList ∧
      claimC4LeafName (("Leaf Name: Tulsi plant\nMore").toList)
        = ("Tulsi plant\nMore").toList ∧
      ("Tulsi plant").toList ≠ ("Tulsi plant\nMore").toList :=
  ⟨by decide, by decide, by decide⟩

/-- C4 (amended): "Leaf Name" and "Scientific Name" are reported separately
from the category mapping (they are never keys of it) and each defaults to
the literal "N/A" whenever its label is absent from ResponseText; when
present they are extracted not category-style but by a newline-delimited
rule: the span runs from just after the label-plus-colon to the first newline
at or after that point, then is trimmed of whitespace and '*'. -/
theorem C4_pseudo_categories (t : List Char) :
    (∀ v, (lnL, v) ∉ segment t) ∧ (∀ v, (snL, v) ∉ segment t) ∧
      (findFrom t lnL 0 = none → leafName t = nAtext) ∧
      (findFrom t snL 0 = none → scientificName t = nAtext) ∧
      (∀ s j, findFrom t lnL 0 = some s →
        findFrom t nlL (s + lnColon.length) = some j →
        leafName t = stripStar (stripWs (sliceNat t (s + lnColon.length) j))) ∧
      (∀ s j, findFrom t snL 0 = some s →
        findFrom t nlL (s + snColon.length) = some j →
        scientificName t = stripStar (stripWs (sliceNat t (s + snColon.length) j))) := by
  refine ⟨?_, ?_, ?_, ?_, ?_, ?_⟩
  · intro v hmem
    have := ((mem_segmentWith categories t lnL v).1 hmem).1
    revert this
    decide
  · intro v hmem
    have := ((mem_segmentWith categories t snL v).1 hmem).1
    revert this
    decide
  · intro h
    unfold leafName
    rw [h]
  · intro h
    unfold scientificName
    rw [h]
  · intro s j hs hj
    have hocc := findFrom_sound t nlL _ j hj
    have hjlen : j + nlL.length ≤ t.length :=
      occursAt_le_length t nlL j (by decide) hocc.2
    have hjlt : j ≤ t.length := by
      have : nlL.length = 1 := by decide
      omega
    have hslt : s + lnColon.length ≤ t.length := Nat.le_trans hocc.1 hjlt
    unfold leafName
    rw [hs]
    simp only [pyFind, hj]
    have : ((j : Nat) : Int) = Int.ofNat j := rfl
    rw [this, pySlice_ofNat t _ j hslt hjlt]
  · intro s j hs hj
    have hocc := findFrom_sound t nlL _ j hj
    have hjlen : j + nlL.length ≤ t.length :=
      occursAt_le_length t nlL j (by decide) hocc.2
    have hjlt : j ≤ t.length := by
      have : nlL.length = 1 := by decide
      omega
    have hslt : s + snColon.length ≤ t.length := Nat.le_trans hocc.1 hjlt
    unfold scientificName
    rw [hs]
    simp only [pyFind, hj]
    have : ((j : Nat) : Int) = Int.ofNat j := rfl
    rw [this, pySlice_ofNat t _ j hslt hjlt]

theorem C4_pseudo_witness :
    leafName (("no labels here").toList) = nAtext ∧
      leafName (("Leaf Name: X\nY").toList)
        = stripStar (stripWs (sliceNat (("Leaf Name: X\nY").toList)
            (0 + lnColon.length) 12)) :=
  ⟨(C4_pseudo_categories (("no labels here").toList)).2.2.1 (by decide),
    (C4_pseudo_categories (("Leaf Name: X\nY").toList)).2.2.2.2.1 0 12
      (by decide) (by decide)⟩

/-! ### Claim C10: missing newline after a pseudo-category label -/

/-- Python `t[a:-1]` drops the final character: it is `drop a` of `dropLast`. -/
theorem pySlice_neg_one (t : List Char) (a : Nat) :
    pySlice t (Int.ofNat a) (-1) = t.dropLast.drop a := by
  unfold pySlice pyNorm
  have hca : Int.ofNat a = (a : Int) := rfl
  rw [hca, if_neg (by omega), if_pos (by omega)]
  have h3 : ((a : Int)).toNat = a := rfl
  rw [h3]
  have hb : ((t.length : Int) + -1).toNat = t.length - 1 := by omega
  rw [hb]
  unfold sliceNat
  rw [← List.dropLast_eq_take]
  by_cases hle : a ≤ t.length
  · rw [Nat.min_eq_left hle]
  · rw [Nat.min_eq_right (le_of_not_le hle)]
    have e1 : t.dropLast.drop t.length = [] :=
      List.drop_eq_nil_of_le (by rw [List.length_dropLast]; omega)
    have e2 : t.dropLast.drop a = [] :=
      List.drop_eq_nil_of_le (by rw [List.length_dropLast]; omega)
    rw [e1, e2]

/-- C10: if "Leaf Name" occurs but no newline occurs at or after the end of
that occurrence, the newline search returns -1 and is used directly as a
slice end, so the extracted leaf name is the text after the label with its
final character dropped (before whitespace and '*' stripping); the same
holds for "Scientific Name". -/
theorem C10_missing_newline (t : List Char) :
    (∀ s, findFrom t lnL 0 = some s →
      (∀ j, s + lnL.length ≤ j → ¬ occursAt t nlL j) →
      pyFind t nlL (s + lnColon.length) = -1 ∧
        leafName t = stripStar (stripWs (t.dropLast.drop (s + lnColon.length)))) ∧
    (∀ s, findFrom t snL 0 = some s →
      (∀ j, s + snL.length ≤ j → ¬ occursAt t nlL j) →
      pyFind t nlL (s + snColon.length) = -1 ∧
        scientificName t = stripStar (stripWs (t.dropLast.drop (s + snColon.length)))) := by
  constructor
  · intro s hs hno
    have hnone : findFrom t nlL (s + lnColon.length) = none := by
      cases hf : findFrom t nlL (s + lnColon.length) with
      | none => rfl
      | some j =>
        obtain ⟨hj1, hj2⟩ := findFrom_sound t nlL _ j hf
        have hlen : lnColon.length = lnL.length + 1 := by decide
        exact absurd hj2 (hno j (by omega))
    have hpy : pyFind t nlL (s + lnColon.length) = -1 := by
      unfold pyFind
      rw [hnone]
    refine ⟨hpy, ?_⟩
    unfold leafName
    rw [hs]
    simp only [hpy, pySlice_neg_one]
  · intro s hs hno
    have hnone : findFrom t nlL (s + snColon.length) = none := by
      cases hf : findFrom t nlL (s + snColon.length) with
      | none => rfl
      | some j =>
        obtain ⟨hj1, hj2⟩ := findFrom_sound t nlL _ j hf
        have hlen : snColon.length = snL.length + 1 := by decide
        exact absurd hj2 (hno j (by omega))
    have hpy : pyFind t nlL (s + snColon.length) = -1 := by
      unfold pyFind
      rw [hnone]
    refine ⟨hpy, ?_⟩
    unfold scientificName
    rw [hs]
    simp only [hpy, pySlice_neg_one]

theorem C10_witness :
    (pyFind (("Leaf Name: Tulsi").toList) nlL (0 + lnColon.length) = -1 ∧
      leafName (("Leaf Name: Tulsi").toList)
        = stripStar (stripWs ((("Leaf Name: Tulsi").toList).dropLast.drop
            (0 + lnColon.length)))) ∧
    (pyFind (("Scientific Name: Ocimum").toList) nlL (0 + snColon.length) = -1 ∧
      scientificName (("Scientific Name: Ocimum").toList)
        = stripStar (stripWs ((("Scientific Name: Ocimum").toList).dropLast.drop
            (0 + snColon.length)))) :=
  ⟨(C10_missing_newline (("Leaf Name: Tulsi").toList)).1 0 (by decide)
      (fun j _ => findFrom_not_found (("Leaf Name: Tulsi").toList) nlL 0
        (by decide) j (Nat.zero_le j)),
    (C10_missing_newline (("Scientific Name: Ocimum").toList)).2 0 (by decide)
      (fun j _ => findFrom_not_found (("Scientific Name: Ocimum").toList) nlL 0
        (by decide) j (Nat.zero_le j))⟩

/-! ### The six labels cannot overlap in the text -/

/-- Two distinct occurrences of non-overlap-compatible patterns cannot
overlap: if `a` occurs at `i`, `b` occurs at `j ≥ i`, and no shift of `b`
against `a` matches characterwise, then `b` starts at or after the end of
`a`'s occurrence. -/
theorem occ_apart (t a b : List Char) (i j : Nat)
    (hnov : ∀ d, d < a.length →
      b.take (min (a.length - d) b.length)
        ≠ (a.drop d).take (min (a.length - d) b.length))
    (hoa : occursAt t a i) (hob : occursAt t b j) (hij : i ≤ j) :
    i + a.length ≤ j := by
  by_contra hcon
  push_neg at hcon
  have hdlt : j - i < a.length := by omega
  set d := j - i with hd
  have hu : (t.drop i).take a.length = a := hoa
  have hub : ((t.drop i).drop d).take b.length = b := by
    have hdd : (t.drop i).drop d = t.drop (i + d) := by
      rw [List.drop_drop]
    have hj : i + d = j := by omega
    rw [hdd, hj]
    exact hob
  have hsplit : t.drop i = a ++ (t.drop i).drop a.length := by
    conv_lhs => rw [← List.take_append_drop a.length (t.drop i)]
    rw [hu]
  set w := (t.drop i).drop a.length with hw
  have hdrop : (t.drop i).drop d = a.drop d ++ w := by
    rw [hsplit]
    exact List.drop_append_of_le_length (by omega)
  have hbtake : b = (a.drop d ++ w).take b.length := by
    rw [← hdrop]
    exact hub.symm
  have step1 : b.take (min (a.length - d) b.length)
      = ((a.drop d ++ w).take b.length).take (min (a.length - d) b.length) :=
    congrArg (List.take (min (a.length - d) b.length)) hbtake
  have step2 : ((a.drop d ++ w).take b.length).take (min (a.length - d) b.length)
      = (a.drop d ++ w).take (min (a.length - d) b.length) := by
    rw [List.take_take]
    congr 1
    omega
  have step3 : (a.drop d ++ w).take (min (a.length - d) b.length)
      = (a.drop d).take (min (a.length - d) b.length) :=
    List.take_append_of_le_length (by rw [List.length_drop]; omega)
  exact hnov d hdlt (step1.trans (step2.trans step3))

/-- None of the six category labels can overlap another one at any shift:
checked characterwise over all 30 ordered pairs. -/
theorem categories_no_overlap :
    ∀ a ∈ categories, ∀ b ∈ categories, a ≠ b →
      ∀ d, d < a.length →
        b.take (min (a.length - d) b.length)
          ≠ (a.drop d).take (min (a.length - d) b.length) := by decide

/-! ### Claim C3: spans are contiguous substrings and never overlap -/

theorem span_ranges_apart (t c1 c2 : List Char) (s1 s2 : Nat)
    (hc1 : c1 ∈ categories) (hc2 : c2 ∈ categories) (hne : c1 ≠ c2)
    (ho1 : occursAt t c1 s1) (ho2 : occursAt t c2 s2) (hle : s1 ≤ s2) :
    nextBoundary categories t (s1 + c1.length) ≤ s2 := by
  have hapart : s1 + c1.length ≤ s2 :=
    occ_apart t c1 c2 s1 s2 (categories_no_overlap c1 hc1 c2 hc2 hne) ho1 ho2 hle
  exact nextBoundary_le_of_occursAt categories t c2 _ s2 hc2 hapart ho2

/-- C3: every recorded span is a contiguous substring of ResponseText, and
the index ranges of the spans recorded for two different categories never
overlap. -/
theorem C3_spans_contiguous_disjoint (t : List Char) :
    (∀ c v, (c, v) ∈ segment t → contiguousIn v t) ∧
      (∀ c1 c2 s1 s2, c1 ∈ categories → c2 ∈ categories → c1 ≠ c2 →
        findFrom t c1 0 = some s1 → findFrom t c2 0 = some s2 →
        ∀ k, ¬ (s1 + c1.length + 1 ≤ k ∧
            k < nextBoundary categories t (s1 + c1.length) ∧
            s2 + c2.length + 1 ≤ k ∧
            k < nextBoundary categories t (s2 + c2.length))) := by
  constructor
  · intro c v hmem
    obtain ⟨_, s, _, hv⟩ := (mem_segmentWith categories t c v).1 hmem
    rw [hv]
    exact stripWs_slice_contiguous t _ _
  · intro c1 c2 s1 s2 hc1 hc2 hne hf1 hf2 k hk
    obtain ⟨hk1, hk2, hk3, hk4⟩ := hk
    have ho1 := (findFrom_sound t c1 0 s1 hf1).2
    have ho2 := (findFrom_sound t c2 0 s2 hf2).2
    rcases Nat.le_total s1 s2 with hle | hle
    · have he1 := span_ranges_apart t c1 c2 s1 s2 hc1 hc2 hne ho1 ho2 hle
      omega
    · have he2 := span_ranges_apart t c2 c1 s2 s1 hc2 hc1 (Ne.symm hne) ho2 ho1 hle
      omega

theorem C3_witness :
    contiguousIn (("green.").toList)
        (("Morphological Features: green. Usage: tea.").toList) ∧
      ¬ (0 + mfL.length + 1 ≤ 37 ∧
          37 < nextBoundary categories
            (("Morphological Features: green. Usage: tea.").toList) (0 + mfL.length) ∧
          31 + usL.length + 1 ≤ 37 ∧
          37 < nextBoundary categories
            (("Morphological Features: green. Usage: tea.").toList) (31 + usL.length)) :=
  ⟨(C3_spans_contiguous_disjoint
        (("Morphological Features: green. Usage: tea.").toList)).1 mfL
      (("green.").toList) (by decide),
    (C3_spans_contiguous_disjoint
        (("Morphological Features: green. Usage: tea.").toList)).2 mfL usL 0 31
      (by decide) (by decide) (by decide) (by decide) (by decide) 37⟩

/-! ### Exact-occurrence machinery for the canonical-order claim -/

/-- All indices at which `p` occurs in `t`; for a nonempty pattern every
occurrence index is at most `t.length`, so the range is exhaustive. -/
def occsList (t p : List Char) : List Nat :=
  (List.range (t.length + 1)).filter (fun i => decide (occursAt t p i))

theorem occsList_singleton (t p : List Char) (s : Nat) (hp : p ≠ [])
    (h : occsList t p = [s]) :
    occursAt t p s ∧ (∀ j, occursAt t p j → j = s) ∧ findFrom t p 0 = some s := by
  have hp1 : 1 ≤ p.length := by
    cases p with
    | nil => exact absurd rfl hp
    | cons a as => simp
  have hmem : ∀ j, occursAt t p j → j ∈ occsList t p := by
    intro j hj
    unfold occsList
    rw [List.mem_filter, List.mem_range]
    refine ⟨?_, by simpa using hj⟩
    have := occursAt_le_length t p j hp hj
    omega
  have hs_mem : s ∈ occsList t p := by
    rw [h]
    exact List.mem_singleton.2 rfl
  have hs_occ : occursAt t p s := by
    have hm := hs_mem
    unfold occsList at hm
    rw [List.mem_filter] at hm
    simpa using hm.2
  refine ⟨hs_occ, ?_, ?_⟩
  · intro j hj
    have hm := hmem j hj
    rw [h] at hm
    simpa using hm
  · obtain ⟨j, hjs, hj⟩ := findFrom_complete t p 0 s (Nat.zero_le s) hs_occ
    have hocc_j := (findFrom_sound t p 0 j hj).2
    have hje : j = s := by
      have hm := hmem j hocc_j
      rw [h] at hm
      simpa using hm
    rwa [hje] at hj

/-- Pin the inner-loop boundary to a specific target occurrence. -/
theorem nb_eq_next (labels : List (List Char)) (t : List Char) (base target : Nat)
    (hmono : ∀ c ∈ labels, ∀ j, occursAt t c j → base ≤ j → target ≤ j)
    (hocc : ∃ c ∈ labels, occursAt t c target) (hbt : base ≤ target)
    (htlen : target ≤ t.length) :
    nextBoundary labels t base = target := by
  obtain ⟨c, hc, ho⟩ := hocc
  have hub : nextBoundary labels t base ≤ target :=
    nextBoundary_le_of_occursAt labels t c base target hc hbt ho
  have hlb : target ≤ nextBoundary labels t base := by
    rcases nextBoundary_cases labels t base with h | ⟨c2, hc2, hb2, ho2⟩
    · omega
    · exact hmono c2 hc2 _ ho2 hb2
  omega

/-- When no label occurs at or past `base`, the boundary stays at the end. -/
theorem nb_eq_len (labels : List (List Char)) (t : List Char) (base : Nat)
    (hnone : ∀ c ∈ labels, ∀ j, occursAt t c j → ¬ base ≤ j) :
    nextBoundary labels t base = t.length := by
  rcases nextBoundary_cases labels t base with h | ⟨c2, hc2, hb2, ho2⟩
  · exact h
  · exact absurd hb2 (hnone c2 hc2 _ ho2)

/-! ### Reconstruction helpers -/

theorem drop_eq_label_append (t c : List Char) (s : Nat) (h : occursAt t c s) :
    t.drop s = c ++ t.drop (s + c.length) := by
  conv_lhs => rw [← List.take_append_drop c.length (t.drop s)]
  rw [h, List.drop_drop]

theorem drop_eq_slice_append (t : List Char) (a b : Nat) (hab : a ≤ b)
    (hb : b ≤ t.length) :
    t.drop a = sliceNat t a b ++ t.drop b := by
  unfold sliceNat
  conv_lhs => rw [← List.take_append_drop b t]
  rw [List.drop_append_of_le_length (by rw [List.length_take]; omega)]

theorem sliceNat_to_len (t : List Char) (a : Nat) :
    sliceNat t a t.length = t.drop a := by
  unfold sliceNat
  rw [List.take_length]

theorem sliceNat_succ_drop (t : List Char) (a b : Nat) :
    sliceNat t (a + 1) b = (sliceNat t a b).drop 1 := by
  unfold sliceNat
  rw [List.drop_drop]

/-! ### Claim C9: canonical-order segmentation and reconstruction -/

/-- C9: if ResponseText contains every category label exactly once and in the
canonical declared order, the segmenter returns exactly one entry per
category, in order; each recorded span is the whitespace-trimmed tail (past
the single skipped separator character) of its chunk, and the region of
ResponseText from the first label onward is exactly the concatenation of the
labels with their chunks. -/
theorem C9_canonical_reconstruction (t : List Char) (s1 s2 s3 s4 s5 s6 : Nat)
    (h1 : occsList t mfL = [s1]) (h2 : occsList t ccL = [s2])
    (h3 : occsList t mpL = [s3]) (h4 : occsList t dcL = [s4])
    (h5 : occsList t usL = [s5]) (h6 : occsList t vdL = [s6])
    (o12 : s1 < s2) (o23 : s2 < s3) (o34 : s3 < s4) (o45 : s4 < s5) (o56 : s5 < s6) :
    segment t =
      [(mfL, stripWs ((sliceNat t (s1 + mfL.length) s2).drop 1)),
       (ccL, stripWs ((sliceNat t (s2 + ccL.length) s3).drop 1)),
       (mpL, stripWs ((sliceNat t (s3 + mpL.length) s4).drop 1)),
       (dcL, stripWs ((sliceNat t (s4 + dcL.length) s5).drop 1)),
       (usL, stripWs ((sliceNat t (s5 + usL.length) s6).drop 1)),
       (vdL, stripWs ((sliceNat t (s6 + vdL.length) t.length).drop 1))] ∧
    t.drop s1 =
      mfL ++ (sliceNat t (s1 + mfL.length) s2 ++
        (ccL ++ (sliceNat t (s2 + ccL.length) s3 ++
          (mpL ++ (sliceNat t (s3 + mpL.length) s4 ++
            (dcL ++ (sliceNat t (s4 + dcL.length) s5 ++
              (usL ++ (sliceNat t (s5 + usL.length) s6 ++
                (vdL ++ sliceNat t (s6 + vdL.length) t.length)))))))))) := by
  obtain ⟨occ1, uniq1, hf1⟩ := occsList_singleton t mfL s1 (by decide) h1
  obtain ⟨occ2, uniq2, hf2⟩ := occsList_singleton t ccL s2 (by decide) h2
  obtain ⟨occ3, uniq3, hf3⟩ := occsList_singleton t mpL s3 (by decide) h3
  obtain ⟨occ4, uniq4, hf4⟩ := occsList_singleton t dcL s4 (by decide) h4
  obtain ⟨occ5, uniq5, hf5⟩ := occsList_singleton t usL s5 (by decide) h5
  obtain ⟨occ6, uniq6, hf6⟩ := occsList_singleton t vdL s6 (by decide) h6
  have L1 : mfL.length = 22 := by decide
  have L2 : ccL.length = 20 := by decide
  have L3 : mpL.length = 20 := by decide
  have L4 : dcL.length = 23 := by decide
  have L5 : usL.length = 5 := by decide
  have L6 : vdL.length = 7 := by decide
  have a12 : s1 + mfL.length ≤ s2 :=
    occ_apart t mfL ccL s1 s2
      (categories_no_overlap mfL (by decide) ccL (by decide) (by decide)) occ1 occ2
      (Nat.le_of_lt o12)
  have a23 : s2 + ccL.length ≤ s3 :=
    occ_apart t ccL mpL s2 s3
      (categories_no_overlap ccL (by decide) mpL (by decide) (by decide)) occ2 occ3
      (Nat.le_of_lt o23)
  have a34 : s3 + mpL.length ≤ s4 :=
    occ_apart t mpL dcL s3 s4
      (categories_no_overlap mpL (by decide) dcL (by decide) (by decide)) occ3 occ4
      (Nat.le_of_lt o34)
  have a45 : s4 + dcL.length ≤ s5 :=
    occ_apart t dcL usL s4 s5
      (categories_no_overlap dcL (by decide) usL (by decide) (by decide)) occ4 occ5
      (Nat.le_of_lt o45)
  have a56 : s5 + usL.length ≤ s6 :=
    occ_apart t usL vdL s5 s6
      (categories_no_overlap usL (by decide) vdL (by decide) (by decide)) occ5 occ6
      (Nat.le_of_lt o56)
  have len6 : s6 + vdL.length ≤ t.length := occursAt_le_length t vdL s6 (by decide) occ6
  have hs2len : s2 ≤ t.length := by omega
  have hs3len : s3 ≤ t.length := by omega
  have hs4len : s4 ≤ t.length := by omega
  have hs5len : s5 ≤ t.length := by omega
  have hs6len : s6 ≤ t.length := by omega
  have he1 : nextBoundary [mfL, ccL, mpL, dcL, usL, vdL] t (s1 + mfL.length) = s2 := by
    refine nb_eq_next _ t _ s2 ?_ ⟨ccL, by decide, occ2⟩ a12 hs2len
    intro c hc j hocc hbase
    simp only [List.mem_cons, List.not_mem_nil, or_false] at hc
    rcases hc with rfl | rfl | rfl | rfl | rfl | rfl
    · have := uniq1 j hocc; omega
    · have := uniq2 j hocc; omega
    · have := uniq3 j hocc; omega
    · have := uniq4 j hocc; omega
    · have := uniq5 j hocc; omega
    · have := uniq6 j hocc; omega
  have he2 : nextBoundary [mfL, ccL, mpL, dcL, usL, vdL] t (s2 + ccL.length) = s3 := by
    refine nb_eq_next _ t _ s3 ?_ ⟨mpL, by decide, occ3⟩ a23 hs3len
    intro c hc j hocc hbase
    simp only [List.mem_cons, List.not_mem_nil, or_false] at hc
    rcases hc with rfl | rfl | rfl | rfl | rfl | rfl
    · have := uniq1 j hocc; omega
    · have := uniq2 j hocc; omega
    · have := uniq3 j hocc; omega
    · have := uniq4 j hocc; omega
    · have := uniq5 j hocc; omega
    · have := uniq6 j hocc; omega
  have he3 : nextBoundary [mfL, ccL, mpL, dcL, usL, vdL] t (s3 + mpL.length) = s4 := by
    refine nb_eq_next _ t _ s4 ?_ ⟨dcL, by decide, occ4⟩ a34 hs4len
    intro c hc j hocc hbase
    simp only [List.mem_cons, List.not_mem_nil, or_false] at hc
    rcases hc with rfl | rfl | rfl | rfl | rfl | rfl
    · have := uniq1 j hocc; omega
    · have := uniq2 j hocc; omega
    · have := uniq3 j hocc; omega
    · have := uniq4 j hocc; omega
    · have := uniq5 j hocc; omega
    · have := uniq6 j hocc; omega
  have he4 : nextBoundary [mfL, ccL, mpL, dcL, usL, vdL] t (s4 + dcL.length) = s5 := by
    refine nb_eq_next _ t _ s5 ?_ ⟨usL, by decide, occ5⟩ a45 hs5len
    intro c hc j hocc hbase
    simp only [List.mem_cons, List.not_mem_nil, or_false] at hc
    rcases hc with rfl | rfl | rfl | rfl | rfl | rfl
    · have := uniq1 j hocc; omega
    · have := uniq2 j hocc; omega
    · have := uniq3 j hocc; omega
    · have := uniq4 j hocc; omega
    · have := uniq5 j hocc; omega
    · have := uniq6 j hocc; omega
  have he5 : nextBoundary [mfL, ccL, mpL, dcL, usL, vdL] t (s5 + usL.length) = s6 := by
    refine nb_eq_next _ t _ s6 ?_ ⟨vdL, by decide, occ6⟩ a56 hs6len
    intro c hc j hocc hbase
    simp only [List.mem_cons, List.not_mem_nil, or_false] at hc
    rcases hc with rfl | rfl | rfl | rfl | rfl | rfl
    · have := uniq1 j hocc; omega
    · have := uniq2 j hocc; omega
    · have := uniq3 j hocc; omega
    · have := uniq4 j hocc; omega
    · have := uniq5 j hocc; omega
    · have := uniq6 j hocc; omega
  have he6 : nextBoundary [mfL, ccL, mpL, dcL, usL, vdL] t (s6 + vdL.length) = t.length := by
    refine nb_eq_len _ t _ ?_
    intro c hc j hocc hbase
    simp only [List.mem_cons, List.not_mem_nil, or_false] at hc
    rcases hc with rfl | rfl | rfl | rfl | rfl | rfl
    · have := uniq1 j hocc; omega
    · have := uniq2 j hocc; omega
    · have := uniq3 j hocc; omega
    · have := uniq4 j hocc; omega
    · have := uniq5 j hocc; omega
    · have := uniq6 j hocc; omega
  constructor
  · simp only [segment, segmentWith, categories, List.filterMap_cons, List.filterMap_nil,
      hf1, hf2, hf3, hf4, hf5, hf6, Option.map_some', he1, he2, he3, he4, he5, he6,
      sliceNat_succ_drop]
  · rw [drop_eq_label_append t mfL s1 occ1,
      drop_eq_slice_append t (s1 + mfL.length) s2 a12 hs2len,
      drop_eq_label_append t ccL s2 occ2,
      drop_eq_slice_append t (s2 + ccL.length) s3 a23 hs3len,
      drop_eq_label_append t mpL s3 occ3,
      drop_eq_slice_append t (s3 + mpL.length) s4 a34 hs4len,
      drop_eq_label_append t dcL s4 occ4,
      drop_eq_slice_append t (s4 + dcL.length) s5 a45 hs5len,
      drop_eq_label_append t usL s5 occ5,
      drop_eq_slice_append t (s5 + usL.length) s6 a56 hs6len,
      drop_eq_label_append t vdL s6 occ6,
      sliceNat_to_len]

/-- A response text containing every category label exactly once, in order. -/
def canonicalExample : List Char :=
  ("Morphological Features: a Chemical Composition: b Medicinal Properties: c Diseases and Conditions: d Usage: e Verdict: f").toList

theorem C9_witness :
    segment canonicalExample =
      [(mfL, stripWs ((sliceNat canonicalExample (0 + mfL.length) 26).drop 1)),
       (ccL, stripWs ((sliceNat canonicalExample (26 + ccL.length) 50).drop 1)),
       (mpL, stripWs ((sliceNat canonicalExample (50 + mpL.length) 74).drop 1)),
       (dcL, stripWs ((sliceNat canonicalExample (74 + dcL.length) 101).drop 1)),
       (usL, stripWs ((sliceNat canonicalExample (101 + usL.length) 110).drop 1)),
       (vdL, stripWs ((sliceNat canonicalExample (110 + vdL.length)
          canonicalExample.length).drop 1))] ∧
    canonicalExample.drop 0 =
      mfL ++ (sliceNat canonicalExample (0 + mfL.length) 26 ++
        (ccL ++ (sliceNat canonicalExample (26 + ccL.length) 50 ++
          (mpL ++ (sliceNat canonicalExample (50 + mpL.length) 74 ++
            (dcL ++ (sliceNat canonicalExample (74 + dcL.length) 101 ++
              (usL ++ (sliceNat canonicalExample (101 + usL.length) 110 ++
                (vdL ++ sliceNat canonicalExample (110 + vdL.length)
                  canonicalExample.length)))))))))) :=
  C9_canonical_reconstruction canonicalExample 0 26 50 74 101 110
    (by decide) (by decide) (by decide) (by decide) (by decide) (by decide)
    (by decide) (by decide) (by decide) (by decide) (by decide)

end LeafAnalyzer
